import Mathlib

/-!
Verification of the patchstorage downloader (src/main.rs) against its
natural-language specification.

The embedding models byte buffers as `List Nat`, strings as Lean `String`
(or `List Char` where character-level path surgery is needed), and fallible
Rust operations as `Option`/`Except`.  Rust panics (out-of-bounds indexing
and slicing) are modelled explicitly where a claim is about them.
-/

/-! ## Iterator position

`Iterator::position` on a list: index of the first element satisfying the
predicate, counting from the current iterator position.  Used twice in
`sysex_filter`: once to find the first byte `>= 0xF0`, and once (on the
remainder of the buffer) to find the first `0xF7`. -/

def findPos (p : Nat → Bool) : List Nat → Option Nat
  | [] => none
  | x :: xs => if p x then some 0 else (findPos p xs).map (· + 1)

theorem findPos_some_lt {p : Nat → Bool} {l : List Nat} {i : Nat}
    (h : findPos p l = some i) : i < l.length := by
  induction l generalizing i with
  | nil => simp [findPos] at h
  | cons x xs ih =>
    simp only [findPos] at h
    by_cases hx : p x
    · simp [hx] at h
      simp [← h]
    · simp [hx] at h
      obtain ⟨j, hj, rfl⟩ := h
      have := ih hj
      simp
      omega

theorem findPos_some_holds {p : Nat → Bool} {l : List Nat} {i : Nat}
    (h : findPos p l = some i) : p (l.getD i 0) = true := by
  induction l generalizing i with
  | nil => simp [findPos] at h
  | cons x xs ih =>
    simp only [findPos] at h
    by_cases hx : p x
    · simp [hx] at h
      subst h
      simpa using hx
    · simp [hx] at h
      obtain ⟨j, hj, rfl⟩ := h
      simpa using ih hj

theorem findPos_some_min {p : Nat → Bool} {l : List Nat} {i : Nat}
    (h : findPos p l = some i) : ∀ j, j < i → p (l.getD j 0) = false := by
  induction l generalizing i with
  | nil => simp [findPos] at h
  | cons x xs ih =>
    simp only [findPos] at h
    by_cases hx : p x
    · simp [hx] at h
      omega
    · simp [hx] at h
      obtain ⟨k, hk, rfl⟩ := h
      intro j hj
      cases j with
      | zero => simpa using hx
      | succ j' =>
        simp only [List.getD_cons_succ]
        exact ih hk j' (by omega)

theorem findPos_intro {p : Nat → Bool} {l : List Nat} {i : Nat}
    (hlt : i < l.length) (hp : p (l.getD i 0) = true)
    (hmin : ∀ j, j < i → p (l.getD j 0) = false) :
    findPos p l = some i := by
  induction l generalizing i with
  | nil => simp at hlt
  | cons x xs ih =>
    simp only [findPos]
    cases i with
    | zero =>
      simp only [List.getD_cons_zero] at hp
      simp [hp]
    | succ i' =>
      have hx : p x = false := by simpa using hmin 0 (by omega)
      simp only [hx, if_neg Bool.false_ne_true, Bool.false_eq_true, if_false]
      have : findPos p xs = some i' := by
        apply ih
        · simpa using hlt
        · simpa using hp
        · intro j hj
          simpa using hmin (j + 1) (by omega)
      simp [this]

/-! ## Binary frame extractor

`sysex_filter` from src/main.rs:

```rust
fn sysex_filter(buf: &[u8]) -> Option<&[u8]> {
    let mut iter = buf.iter();
    let start = iter.position(|x| *x >= 0xF0)?;
    if buf[start] != 0xF0 { return None; }
    let last = iter.position(|x| *x == 0xF7)?;
    let end = start + last + 2;
    if (start, end) == (0, buf.len()) { return None; }
    Some(&buf[start..end])
}
```

The second `position` call continues the same iterator, which has already
consumed elements `0..=start`, so it scans `buf[start+1..]` and returns an
offset relative to `start+1`.  The slice `buf[start..end]` is modelled as
`(buf.drop start).take (end - start)` with `end = start + last + 2`. -/

def sysex_filter (buf : List Nat) : Option (List Nat) :=
  (findPos (fun x => decide (0xF0 ≤ x)) buf).bind fun start =>
    if buf.getD start 0 ≠ 0xF0 then none
    else
      (findPos (fun x => decide (x = 0xF7)) (buf.drop (start + 1))).bind fun last =>
        if start = 0 ∧ start + last + 2 = buf.length then none
        else some ((buf.drop start).take (last + 2))

example : sysex_filter [] = none := by decide
example : sysex_filter [0xF0, 0xF7] = none := by decide
example : sysex_filter [0xB0, 0x76, 0x7F, 0xF0, 0xF7] = some [0xF0, 0xF7] := by decide
example : sysex_filter [0xF0, 0xF7, 0xB0, 0x76, 0x00] = some [0xF0, 0xF7] := by decide

/-! ### List index bookkeeping -/

theorem getD_drop (l : List Nat) (n i : Nat) :
    (l.drop n).getD i 0 = l.getD (n + i) 0 := by
  induction n generalizing l with
  | zero => simp
  | succ n ih =>
    cases l with
    | nil => simp
    | cons x xs =>
      simp only [List.drop_succ_cons, ih xs]
      have : n + 1 + i = (n + i) + 1 := by omega
      simp [this]

theorem getD_take (l : List Nat) (m i : Nat) (h : i < m) :
    (l.take m).getD i 0 = l.getD i 0 := by
  induction l generalizing m i with
  | nil => simp
  | cons x xs ih =>
    cases m with
    | zero => omega
    | succ m' =>
      cases i with
      | zero => simp
      | succ i' =>
        simp only [List.take_succ_cons, List.getD_cons_succ]
        exact ih m' i' (by omega)

/-! ### Characterization of `sysex_filter` -/

/-- Inversion: a successful extraction exposes the start position, the offset
of the terminating `0xF7`, and the returned slice. -/
theorem sysex_filter_some_inv {buf s : List Nat} (h : sysex_filter buf = some s) :
    ∃ start last,
      findPos (fun x => decide (0xF0 ≤ x)) buf = some start ∧
      buf.getD start 0 = 0xF0 ∧
      findPos (fun x => decide (x = 0xF7)) (buf.drop (start + 1)) = some last ∧
      ¬(start = 0 ∧ start + last + 2 = buf.length) ∧
      s = (buf.drop start).take (last + 2) := by
  unfold sysex_filter at h
  cases hfp : findPos (fun x => decide (0xF0 ≤ x)) buf with
  | none => rw [hfp] at h; simp at h
  | some start =>
    rw [hfp] at h
    simp only [Option.some_bind] at h
    by_cases hb : buf.getD start 0 = 0xF0
    · rw [if_neg (not_not_intro hb)] at h
      cases hfp2 : findPos (fun x => decide (x = 0xF7)) (buf.drop (start + 1)) with
      | none => rw [hfp2] at h; simp at h
      | some last =>
        rw [hfp2] at h
        simp only [Option.some_bind] at h
        by_cases hw : start = 0 ∧ start + last + 2 = buf.length
        · rw [if_pos hw] at h; simp at h
        · rw [if_neg hw] at h
          exact ⟨start, last, rfl, hb, hfp2, hw, (Option.some.inj h).symm⟩
    · rw [if_pos hb] at h; simp at h

/-- C3: for every buffer containing exactly one well-formed frame — a `0xF0`
at position `p` with no byte `≥ 0xF0` before it, and a first subsequent `0xF7`
at position `q` — preceded and/or followed by at least one extra byte (so the
frame is not the whole buffer), the extractor returns exactly the inclusive
sub-range `buf[p..=q]` and nothing else. -/
theorem sysex_filter_single_frame {buf : List Nat} {p q : Nat}
    (hp_lt : p < buf.length)
    (hp : buf.getD p 0 = 0xF0)
    (hbefore : ∀ i, i < p → buf.getD i 0 < 0xF0)
    (hpq : p < q) (hq_lt : q < buf.length)
    (hq : buf.getD q 0 = 0xF7)
    (hfirst : ∀ j, j < q → p < j → buf.getD j 0 ≠ 0xF7)
    (hnotall : ¬(p = 0 ∧ q + 1 = buf.length)) :
    sysex_filter buf = some ((buf.drop p).take (q - p + 1)) := by
  have h1 : findPos (fun x => decide (0xF0 ≤ x)) buf = some p := by
    apply findPos_intro hp_lt
    · simp only [decide_eq_true_eq, hp]
      omega
    · intro j hj
      simp only [decide_eq_false_iff_not, Nat.not_le]
      exact hbefore j hj
  have h2 : findPos (fun x => decide (x = 0xF7)) (buf.drop (p + 1)) = some (q - p - 1) := by
    apply findPos_intro
    · rw [List.length_drop]; omega
    · simp only [decide_eq_true_eq, getD_drop]
      have he : p + 1 + (q - p - 1) = q := by omega
      rw [he, hq]
    · intro j hj
      simp only [decide_eq_false_iff_not, getD_drop]
      exact hfirst (p + 1 + j) (by omega) (by omega)

  unfold sysex_filter
  rw [h1]
  simp only [Option.some_bind]
  rw [if_neg (not_not_intro hp), h2]
  simp only [Option.some_bind]
  rw [if_neg (by omega)]
  have he : q - p - 1 + 2 = q - p + 1 := by omega
  rw [he]

/-- Whole-buffer case: when the frame starts at position 0 with `0xF0` and the
first `0xF7` after it is the final byte, nothing would be trimmed and the
filter reports "no match". -/
theorem sysex_filter_whole {buf : List Nat}
    (hlen : 2 ≤ buf.length)
    (h0 : buf.getD 0 0 = 0xF0)
    (hlast : buf.getD (buf.length - 1) 0 = 0xF7)
    (hmid : ∀ j, 0 < j → j + 1 < buf.length → buf.getD j 0 ≠ 0xF7) :
    sysex_filter buf = none := by
  have h1 : findPos (fun x => decide (0xF0 ≤ x)) buf = some 0 := by
    apply findPos_intro (by omega)
    · simp only [decide_eq_true_eq, h0]
      omega
    · intro j hj; omega
  have h2 : findPos (fun x => decide (x = 0xF7)) (buf.drop (0 + 1)) = some (buf.length - 2) := by
    apply findPos_intro
    · rw [List.length_drop]; omega
    · simp only [decide_eq_true_eq, getD_drop]
      have he : 0 + 1 + (buf.length - 2) = buf.length - 1 := by omega
      rw [he, hlast]
    · intro j hj
      simp only [decide_eq_false_iff_not, getD_drop]
      exact hmid (0 + 1 + j) (by omega) (by omega)
  unfold sysex_filter
  rw [h1]
  simp only [Option.some_bind]
  rw [if_neg (not_not_intro h0), h2]
  simp only [Option.some_bind]
  rw [if_pos ⟨by trivial, by omega⟩]

/-- Every successful extraction is a minimal frame: length at least two,
first byte `0xF0`, last byte `0xF7`, and no `0xF7` before the last byte. -/
theorem sysex_filter_frame_facts {buf s : List Nat} (h : sysex_filter buf = some s) :
    2 ≤ s.length ∧ s.getD 0 0 = 0xF0 ∧ s.getD (s.length - 1) 0 = 0xF7 ∧
    ∀ j, j + 1 < s.length → s.getD j 0 ≠ 0xF7 := by
  obtain ⟨start, last, hfp, hb, hfp2, hw, rfl⟩ := sysex_filter_some_inv h
  have hlast_lt : last < buf.length - (start + 1) := by
    have := findPos_some_lt hfp2
    rwa [List.length_drop] at this
  have hslen : ((buf.drop start).take (last + 2)).length = last + 2 := by
    rw [List.length_take, List.length_drop]
    omega
  have hget : ∀ j, j < last + 2 → ((buf.drop start).take (last + 2)).getD j 0 = buf.getD (start + j) 0 := by
    intro j hj
    rw [getD_take _ _ _ hj, getD_drop]
  have hterm : buf.getD (start + (last + 1)) 0 = 0xF7 := by
    have := findPos_some_holds hfp2
    simp only [decide_eq_true_eq, getD_drop] at this
    have he : start + (last + 1) = start + 1 + last := by omega
    rw [he]
    exact this
  refine ⟨by omega, ?_, ?_, ?_⟩
  · rw [hget 0 (by omega)]
    simpa using hb
  · rw [hslen]
    have he : last + 2 - 1 = last + 1 := by omega
    rw [he, hget (last + 1) (by omega)]
    exact hterm
  · intro j hj
    rw [hslen] at hj
    rw [hget j (by omega)]
    cases j with
    | zero =>
      simp only [Nat.add_zero]
      rw [hb]
      omega
    | succ j' =>
      have := findPos_some_min hfp2 j' (by omega)
      simp only [decide_eq_false_iff_not, getD_drop] at this
      have he : start + (j' + 1) = start + 1 + j' := by omega
      rw [he]
      exact this

/-- C4: when the matched frame range is the whole buffer — position 0 holds
`0xF0` and the first subsequent `0xF7` is the final byte — the extractor
returns "no match" rather than a match. -/
theorem sysex_filter_unchanged {buf : List Nat}
    (hlen : 2 ≤ buf.length)
    (h0 : buf.getD 0 0 = 0xF0)
    (hlast : buf.getD (buf.length - 1) 0 = 0xF7)
    (hmid : ∀ j, j < buf.length - 1 → 0 < j → buf.getD j 0 ≠ 0xF7) :
    sysex_filter buf = none :=
  sysex_filter_whole hlen h0 hlast (fun j hj hlt => hmid j (by omega) hj)

/-- Witness for C4 at the two-byte buffer `[0xF0, 0xF7]`. -/
theorem sysex_filter_unchanged_witness : sysex_filter [0xF0, 0xF7] = none :=
  @sysex_filter_unchanged [0xF0, 0xF7] (by decide) (by decide) (by decide) (by decide)

/-- C5: idempotence — whenever the extractor returns a match, re-applying it
to the returned sub-range returns "no match": the output is already the
minimal frame. -/
theorem sysex_filter_idempotent {buf s : List Nat} (h : sysex_filter buf = some s) :
    sysex_filter s = none := by
  obtain ⟨h1, h2, h3, h4⟩ := sysex_filter_frame_facts h
  exact sysex_filter_whole h1 h2 h3 (fun j _ hlt => h4 j hlt)

/-- Witness for C5: extracting from `[0x01, 0xF0, 0x02, 0xF7, 0x03]` yields
`[0xF0, 0x02, 0xF7]`, and re-applying the extractor to it yields no match. -/
theorem sysex_filter_idempotent_witness : sysex_filter [0xF0, 0x02, 0xF7] = none :=
  @sysex_filter_idempotent [0x01, 0xF0, 0x02, 0xF7, 0x03] [0xF0, 0x02, 0xF7] (by decide)

/-- C10: whenever `sysex_filter` returns `some s`, the slice `s` is non-empty,
starts with `0xF0`, ends with `0xF7`, and contains no `0xF7` before its last
position. -/
theorem sysex_filter_minimal_frame {buf s : List Nat} (h : sysex_filter buf = some s) :
    s ≠ [] ∧ s.getD 0 0 = 0xF0 ∧ s.getD (s.length - 1) 0 = 0xF7 ∧
    ∀ j, j + 1 < s.length → s.getD j 0 ≠ 0xF7 := by
  obtain ⟨h1, h2, h3, h4⟩ := sysex_filter_frame_facts h
  refine ⟨?_, h2, h3, h4⟩
  intro hnil
  rw [hnil] at h1
  simp at h1

/-- Witness for C10 at the input `[0x00, 0xF0, 0x01, 0xF7, 0x05]`, whose
extraction is `[0xF0, 0x01, 0xF7]`. -/
theorem sysex_filter_minimal_frame_witness :
    ([0xF0, 0x01, 0xF7] : List Nat) ≠ [] ∧
    ([0xF0, 0x01, 0xF7] : List Nat).getD 0 0 = 0xF0 ∧
    ([0xF0, 0x01, 0xF7] : List Nat).getD (([0xF0, 0x01, 0xF7] : List Nat).length - 1) 0 = 0xF7 ∧
    ∀ j, j + 1 < ([0xF0, 0x01, 0xF7] : List Nat).length →
      ([0xF0, 0x01, 0xF7] : List Nat).getD j 0 ≠ 0xF7 :=
  @sysex_filter_minimal_frame [0x00, 0xF0, 0x01, 0xF7, 0x05] [0xF0, 0x01, 0xF7] (by decide)

/-- Witness for C3 at `[0x01, 0xF0, 0x02, 0xF7, 0x03]` with the frame at
positions 1 through 3. -/
theorem sysex_filter_single_frame_witness :
    sysex_filter [0x01, 0xF0, 0x02, 0xF7, 0x03] =
      some ((([0x01, 0xF0, 0x02, 0xF7, 0x03] : List Nat).drop 1).take (3 - 1 + 1)) :=
  @sysex_filter_single_frame [0x01, 0xF0, 0x02, 0xF7, 0x03] 1 3 (by decide) (by decide)
    (by decide) (by decide) (by decide) (by decide) (by decide) (by decide)

/-! ### Totality of `sysex_filter` (C9)

The Rust body indexes `buf[start]` and slices `&buf[start..end]`, both of
which panic when out of bounds.  `sysex_filter_checked` makes those panics
explicit: the outer `Option` is `none` exactly when a panic would occur
(index out of range, or `start ≤ end ≤ buf.len()` violated). -/

def sysex_filter_checked (buf : List Nat) : Option (Option (List Nat)) :=
  (findPos (fun x => decide (0xF0 ≤ x)) buf).elim (some none) fun start =>
    if start < buf.length then
      if buf.getD start 0 ≠ 0xF0 then some none
      else
        (findPos (fun x => decide (x = 0xF7)) (buf.drop (start + 1))).elim (some none)
          fun last =>
            if start = 0 ∧ start + last + 2 = buf.length then some none
            else if start ≤ start + last + 2 ∧ start + last + 2 ≤ buf.length then
              some (some ((buf.drop start).take (start + last + 2 - start)))
            else none
    else none

/-- C9: `sysex_filter` is total and never panics — the panic-aware variant
always yields `some`, agreeing with the plain function on every input: the
index `buf[start]` is in bounds and the slice bounds satisfy
`start ≤ end ≤ buf.len()` whenever they are used. -/
theorem sysex_filter_never_panics (buf : List Nat) :
    sysex_filter_checked buf = some (sysex_filter buf) := by
  unfold sysex_filter_checked sysex_filter
  cases hfp : findPos (fun x => decide (0xF0 ≤ x)) buf with
  | none => rfl
  | some start =>
    have hlt := findPos_some_lt hfp
    simp only [Option.elim_some, Option.some_bind]
    rw [if_pos hlt]
    by_cases hF : buf.getD start 0 = 0xF0
    · rw [if_neg (not_not_intro hF), if_neg (not_not_intro hF)]
      cases hfp2 : findPos (fun x => decide (x = 0xF7)) (buf.drop (start + 1)) with
      | none => rfl
      | some last =>
        have hlast := findPos_some_lt hfp2
        rw [List.length_drop] at hlast
        simp only [Option.elim_some, Option.some_bind]
        by_cases hw : start = 0 ∧ start + last + 2 = buf.length
        · rw [if_pos hw, if_pos hw]
        · rw [if_neg hw, if_neg hw, if_pos (by omega)]
          have he : start + last + 2 - start = last + 2 := by omega
          rw [he]
    · rw [if_pos hF, if_pos hF]

/-! ## Filename extensions and the output path

`has_extension` from src/main.rs:

```rust
fn has_extension(filename: &str, extension: &str) -> bool {
    Path::new(filename).extension() == Some(OsStr::new(extension))
}
```

`Path::extension()` looks at the final path component (`file_name`) and
splits it at its last `.`: there is no extension when the name contains no
dot, when the only dot is the leading character (hidden files), or when the
name is `..`.  `PathBuf::set_extension` (used at src/main.rs:75) replaces
that extension — it truncates the file name to its stem and appends the new
extension. -/

def lastDotIdx : List Char → Option Nat
  | [] => none
  | c :: cs =>
    match lastDotIdx cs with
    | some i => some (i + 1)
    | none => if c = '.' then some 0 else none

/-- Index of the dot that separates a file name's stem from its extension,
mirroring Rust's `rsplit_file_at_dot`: no dot, a dot only at position 0, or
the literal name `..` mean "no extension". -/
def extensionDotIdx (name : List Char) : Option Nat :=
  if name = ['.', '.'] then none
  else
    match lastDotIdx name with
    | none => none
    | some 0 => none
    | some i => some i

/-- `Path::extension()` on a single file name. -/
def extension_of (name : List Char) : Option (List Char) :=
  (extensionDotIdx name).map (fun i => name.drop (i + 1))

/-- `Path::file_stem()` on a single file name. -/
def file_stem (name : List Char) : List Char :=
  match extensionDotIdx name with
  | none => name
  | some i => name.take i

/-- One step of `Path::file_name()`'s trailing-component normalization, on
the *reversed* path: drop trailing `'/'` separators, then drop a trailing
`"."` component (a `'.'` that is a whole component, i.e. followed in the
reversed path by a separator or nothing) and continue.  Fuel-indexed;
`path.length` fuel always suffices since every step consumes a character. -/
def dropDotSegs : Nat → List Char → List Char
  | 0, r => r
  | fuel + 1, r =>
    if (r.dropWhile (fun c => decide (c = '/'))).headD ' ' = '.' ∧
        (r.dropWhile (fun c => decide (c = '/'))).tail.headD '/' = '/' then
      dropDotSegs fuel (r.dropWhile (fun c => decide (c = '/'))).tail
    else r.dropWhile (fun c => decide (c = '/'))

/-- The reversed path truncated at the end of its `file_name` component:
Rust's `Path::file_name()` skips trailing separators and `"."` components. -/
def strippedRev (path : List Char) : List Char :=
  dropDotSegs path.length path.reverse

/-- The characters of the path's final real component (empty when the path
has none); still to be checked against `".."`, see `file_name?`. -/
def path_file_name (path : List Char) : List Char :=
  ((strippedRev path).takeWhile (fun c => decide (c ≠ '/'))).reverse

/-- `Path::file_name()` for forward-slash paths: the final component after
skipping trailing separators and `"."` components; `none` when nothing
remains or when the last component is `".."`. -/
def file_name? (path : List Char) : Option (List Char) :=
  if path_file_name path = [] ∨ path_file_name path = ['.', '.'] then none
  else some (path_file_name path)

def has_extension (filename : String) (extension : String) : Bool :=
  decide ((file_name? filename.toList).bind extension_of = some extension.toList)

/-- `PathBuf::set_extension(ext)`: when the path has no `file_name` this is a
no-op (Rust returns `false` and leaves the path unchanged); otherwise the
path is truncated at the end of the file stem — a subslice of the original
string, so any trailing separators and `"."` components are discarded too —
and `"." ++ ext` is appended when `ext` is non-empty. -/
def set_extension_path (path ext : List Char) : List Char :=
  if path_file_name path = [] ∨ path_file_name path = ['.', '.'] then path
  else
    (strippedRev path).reverse.take
        ((strippedRev path).length - (path_file_name path).length +
          (file_stem (path_file_name path)).length) ++
      (if ext = [] then [] else '.' :: ext)

/-- The output path computed at src/main.rs:74-75:
`args.output_dir.join(&patch.slug)` followed by
`filename.set_extension(extension)`.  The path is modelled as its character
list; `join` appends `'/'` and the slug (the output directory is taken
without a trailing separator and the slug as a relative path, which is how
`main` builds it). -/
def target_path (outputDir slug extension : String) : List Char :=
  set_extension_path (outputDir.toList ++ '/' :: slug.toList) extension.toList

example : target_path "out" "patch-a" "syx" = "out/patch-a.syx".toList := by decide
example : target_path "out" "a.b" "syx" = "out/a.syx".toList := by decide
example : target_path "out" "." "syx" = "out.syx".toList := by decide
example : target_path "out" ".." "syx" = "out/..".toList := by decide
example : has_extension "a.b/." "b" = true := by decide

/-- C8: the reference table for extension matching — no extension on a bare
basename, case-sensitive mismatch, exact match, and the final component of a
compound extension (`.tar.gz` matches `gz`). -/
theorem has_extension_table :
    has_extension "basename" "bin" = false ∧
    has_extension "basename.syx" "bin" = false ∧
    has_extension "basename.syx" "syx" = true ∧
    has_extension "basename.tar.gz" "gz" = true := by decide

/-- C2 counterexample: for the slug `"a.b"` with extension `"syx"`,
`set_extension` replaces the slug's final extension component, so the
written path is `out/a.syx`, not `{output_dir}/{slug}.{extension}` =
`out/a.b.syx`. -/
theorem target_path_counterexample :
    target_path "out" "a.b" "syx" = "out/a.syx".toList ∧
    target_path "out" "a.b" "syx" ≠ "out/a.b.syx".toList := by decide

theorem takeWhile_append_stop (p : Char → Bool) (l₁ : List Char) (c : Char) (l₂ : List Char)
    (h1 : ∀ x ∈ l₁, p x = true) (hc : p c = false) :
    (l₁ ++ c :: l₂).takeWhile p = l₁ := by
  induction l₁ with
  | nil => simp [List.takeWhile, hc]
  | cons y ys ih =>
    have hy : p y = true := h1 y (by simp)
    simp only [List.cons_append, List.takeWhile_cons, hy, if_true]
    rw [ih (fun x hx => h1 x (by simp [hx]))]

/-- A reversed path ending in a normal component (non-empty, no separator,
not `"."`) needs no trailing-component normalization. -/
theorem dropDotSegs_normal (fuel : Nat) (s t : List Char)
    (hne : s ≠ []) (hslash : ∀ c ∈ s, c ≠ '/') (hdot : s ≠ ['.']) :
    dropDotSegs fuel (s ++ '/' :: t) = s ++ '/' :: t := by
  cases fuel with
  | zero => rfl
  | succ f =>
    obtain ⟨c, rest, rfl⟩ : ∃ c rest, s = c :: rest := by
      cases s with
      | nil => exact absurd rfl hne
      | cons c rest => exact ⟨c, rest, rfl⟩
    have hc : c ≠ '/' := hslash c (by simp)
    have hdw : (c :: (rest ++ '/' :: t)).dropWhile (fun x => decide (x = '/')) =
        c :: (rest ++ '/' :: t) := by
      simp [List.dropWhile_cons, hc]
    have hcond : ¬(c = '.' ∧ (rest ++ '/' :: t).headD '/' = '/') := by
      cases rest with
      | nil =>
        rintro ⟨h1, h2⟩
        exact hdot (by rw [h1])
      | cons d rest2 =>
        rintro ⟨h1, h2⟩
        have hd : d ≠ '/' := hslash d (by simp)
        simp only [List.cons_append, List.headD_cons] at h2
        exact hd h2
    simp only [dropDotSegs, List.cons_append]
    rw [hdw]
    simp only [List.headD_cons, List.tail_cons]
    rw [if_neg hcond]

/-- Joining a normal slug component onto the output directory makes the slug
the path's `file_name`, with nothing stripped from the end. -/
theorem path_file_name_of_join (outputDir : String) (slug : List Char)
    (hne : slug ≠ []) (hslash : ∀ c ∈ slug, c ≠ '/') (hdot : slug ≠ ['.']) :
    path_file_name (outputDir.toList ++ '/' :: slug) = slug ∧
    strippedRev (outputDir.toList ++ '/' :: slug) =
      slug.reverse ++ '/' :: outputDir.toList.reverse := by
  have hstrip : strippedRev (outputDir.toList ++ '/' :: slug) =
      slug.reverse ++ '/' :: outputDir.toList.reverse := by
    unfold strippedRev
    rw [List.reverse_append, List.reverse_cons, List.append_assoc, List.singleton_append]
    apply dropDotSegs_normal
    · simpa using hne
    · intro c hc
      exact hslash c (List.mem_reverse.mp hc)
    · intro h
      apply hdot
      have h2 := congrArg List.reverse h
      simpa using h2
  refine ⟨?_, hstrip⟩
  unfold path_file_name
  rw [hstrip]
  rw [takeWhile_append_stop _ _ _ _ ?h1 (by simp)]
  · exact List.reverse_reverse slug
  case h1 =>
    intro x hx
    simp only [decide_eq_true_eq]
    exact hslash x (List.mem_reverse.mp hx)

/-- C2 amended: the Materializer's target path is the joined path
`{output_dir}/{slug}` with `set_extension` applied, which replaces the
slug's final extension component (and is a no-op for slugs without a file
name, such as `".."`).  For every slug that is a normal path component
(non-empty, no separator, not `"."` or `".."`) with no extension component,
the path coincides with the claimed `{output_dir}/{slug}.{extension}`. -/
theorem target_path_normal_slug (outputDir slug extension : String)
    (hne : slug.toList ≠ [])
    (hslash : ∀ c ∈ slug.toList, c ≠ '/')
    (hdot : slug.toList ≠ ['.'])
    (hdotdot : slug.toList ≠ ['.', '.'])
    (hnodot : extensionDotIdx slug.toList = none)
    (hext : extension.toList ≠ []) :
    target_path outputDir slug extension =
      outputDir.toList ++ '/' :: (slug.toList ++ '.' :: extension.toList) := by
  obtain ⟨hname, hstrip⟩ := path_file_name_of_join outputDir slug.toList hne hslash hdot
  have hstem : file_stem slug.toList = slug.toList := by
    unfold file_stem
    rw [hnodot]
  unfold target_path set_extension_path
  rw [hname, if_neg (fun h => h.elim hne hdotdot), hstrip, hstem, if_neg hext]
  have h1 : (slug.toList.reverse ++ '/' :: outputDir.toList.reverse).reverse =
      outputDir.toList ++ '/' :: slug.toList := by
    simp
  have h2 : (slug.toList.reverse ++ '/' :: outputDir.toList.reverse).length -
      slug.toList.length + slug.toList.length =
      (outputDir.toList ++ '/' :: slug.toList).length := by
    simp
    omega
  rw [h1, h2, List.take_length]
  simp

/-- Witness for the amended C2 at `output_dir = "out"`, `slug = "patch-a"`,
`extension = "syx"`. -/
theorem target_path_normal_slug_witness :
    target_path "out" "patch-a" "syx" =
      "out".toList ++ '/' :: ("patch-a".toList ++ '.' :: "syx".toList) :=
  target_path_normal_slug "out" "patch-a" "syx" (by decide) (by decide) (by decide)
    (by decide) (by decide) (by decide)

/-! ## Paginated catalog reader

Data model of the list endpoint (src/main.rs): `Patch` is one catalog entry,
`GetPatchesRequest` is the pager state (platform id and 1-based page number),
and `PatchesPage` is the outcome of one list fetch together with the
continuation flag derived from the `Link` header. -/

structure Patch where
  id : Int
  slug : String
deriving DecidableEq

structure GetPatchesRequest where
  platform : Nat
  page : Nat
deriving DecidableEq

structure PatchesPage where
  patches : List Patch
  has_next : Bool
deriving DecidableEq

/-- `PageTurner::turn_page` (src/main.rs:187-198), with the network fetch
(`get_patches_page`) abstracted as a function from request to page: if the
response advertises a next page, yield the items and the request for
`page + 1`; otherwise yield the items as the terminal batch. -/
def turn_page (fetch : GetPatchesRequest → PatchesPage) (request : GetPatchesRequest) :
    List Patch × Option GetPatchesRequest :=
  let response := fetch request
  if response.has_next then
    (response.patches, some { platform := request.platform, page := request.page + 1 })
  else
    (response.patches, none)

/-- The `pages` driver loop: repeatedly call `turn_page`, recording the page
number of every request issued and the batch yielded at each step, until a
terminal batch or until the fuel runs out. -/
def pages_trace (fetch : GetPatchesRequest → PatchesPage) :
    Nat → GetPatchesRequest → List Nat × List (List Patch)
  | 0, _ => ([], [])
  | fuel + 1, request =>
    match turn_page fetch request with
    | (items, none) => ([request.page], [items])
    | (items, some next) =>
      let rest := pages_trace fetch fuel next
      (request.page :: rest.1, items :: rest.2)

theorem pages_trace_aux (fetch : GetPatchesRequest → PatchesPage) (platform N : Nat)
    (htrue : ∀ k, k < N → 1 ≤ k → (fetch ⟨platform, k⟩).has_next = true)
    (hfalse : (fetch ⟨platform, N⟩).has_next = false) :
    ∀ d k fuel, 1 ≤ k → k + d = N → d + 1 ≤ fuel →
      pages_trace fetch fuel ⟨platform, k⟩ =
        (List.range' k (d + 1),
         (List.range' k (d + 1)).map (fun j => (fetch ⟨platform, j⟩).patches)) := by
  intro d
  induction d with
  | zero =>
    intro k fuel hk hkd hfuel
    have hkN : k = N := by omega
    subst hkN
    cases fuel with
    | zero => omega
    | succ f =>
      simp only [pages_trace, turn_page, hfalse, if_false, Bool.false_eq_true]
      rfl
  | succ d ih =>
    intro k fuel hk hkd hfuel
    cases fuel with
    | zero => omega
    | succ f =>
      have hnext : (fetch ⟨platform, k⟩).has_next = true := htrue k (by omega) hk
      simp only [pages_trace, turn_page, hnext, if_true]
      rw [ih (k + 1) f (by omega) (by omega) (by omega)]
      have hr : List.range' k (d + 1 + 1) = k :: List.range' (k + 1) (d + 1) := by
        rw [List.range'_succ]
      rw [hr, List.map_cons]

/-- C6: for every `N ≥ 1` and synthetic responses advertising a next page for
all pages `k < N` and none at page `N`, the pager started at page 1 yields
exactly `N` batches (one per page, in server order) and halts, requesting
pages `1, 2, ..., N` in strictly increasing order — for any fuel `≥ N` the
trace is the same. -/
theorem pager_yields_exactly_N (N : Nat) (fetch : GetPatchesRequest → PatchesPage)
    (platform : Nat) (hN : 1 ≤ N)
    (htrue : ∀ k, k < N → 1 ≤ k → (fetch ⟨platform, k⟩).has_next = true)
    (hfalse : (fetch ⟨platform, N⟩).has_next = false)
    (fuel : Nat) (hfuel : N ≤ fuel) :
    pages_trace fetch fuel ⟨platform, 1⟩ =
      (List.range' 1 N,
       (List.range' 1 N).map (fun j => (fetch ⟨platform, j⟩).patches)) := by
  have h := pages_trace_aux fetch platform N htrue hfalse (N - 1) 1 fuel (by omega) (by omega)
    (by omega)
  have he : N - 1 + 1 = N := by omega
  rw [he] at h
  exact h

/-- A synthetic two-page catalog: page 1 advertises a continuation, page 2
does not. -/
def demoFetch : GetPatchesRequest → PatchesPage := fun request =>
  { patches := [{ id := Int.ofNat request.page, slug := "p" }],
    has_next := decide (request.page < 2) }

/-- Witness for C6 with `N = 2` and fuel 5: the pager requests pages 1 and 2
and yields their two batches. -/
theorem pager_yields_exactly_N_witness :
    pages_trace demoFetch 5 ⟨9, 1⟩ =
      ([1, 2], [[{ id := 1, slug := "p" }], [{ id := 2, slug := "p" }]]) := by
  have h := pager_yields_exactly_N 2 demoFetch 9 (by decide) (by decide) (by decide) 5
    (by decide)
  rw [h]
  rfl

/-! ## Link continuation parser

`PagedPatches::has_next` (src/main.rs:174-180):

```rust
fn has_next(&self, headers: &HeaderMap) -> Result<bool> {
    let link_header = headers
        .get(header::LINK)
        .context("missing Link header")?
        .to_str()?;
    Ok(parse_with_rel(link_header)?.contains_key("next"))
}
```

The header map lookup is modelled as an `Option String` (the `Link` header's
value, when present — header values carried as Lean strings are UTF-8 by
construction, so the `to_str` step cannot fail in the model).  The external
`parse_with_rel` crate function is abstracted as a parameter returning the
parsed relation-name set on success and `none` on a parse failure. -/

inductive LinkHeaderError
  | missingHeader
  | parseFailure
deriving DecidableEq

def has_next (parseWithRel : String → Option (List String))
    (linkHeader : Option String) : Except LinkHeaderError Bool :=
  match linkHeader with
  | none => Except.error LinkHeaderError.missingHeader
  | some v =>
    match parseWithRel v with
    | none => Except.error LinkHeaderError.parseFailure
    | some rels => Except.ok (rels.contains "next")

/-- C7: for every parse function, an absent link-relation header yields the
distinguishable missing-header error, an unparsable header value yields the
parse-failure error, and a successful parse returns `ok b` where `b` is true
iff the relation set contains `"next"`. -/
theorem has_next_spec (parseWithRel : String → Option (List String)) :
    has_next parseWithRel none = Except.error LinkHeaderError.missingHeader ∧
    (∀ v, parseWithRel v = none →
      has_next parseWithRel (some v) = Except.error LinkHeaderError.parseFailure) ∧
    (∀ v rels, parseWithRel v = some rels →
      has_next parseWithRel (some v) = Except.ok (rels.contains "next")) := by
  refine ⟨rfl, ?_, ?_⟩
  · intro v hv
    simp only [has_next, hv]
  · intro v rels hv
    simp only [has_next, hv]

/-- A demonstration parse function: fails on the value `"garbage"`, parses a
`next`-relation header and a `prev`-only header otherwise. -/
def demoParseWithRel : String → Option (List String) := fun v =>
  if v = "garbage" then none
  else if v = "with-next" then some ["next", "prev"]
  else some ["prev"]

/-- Witness for C7: the three behaviors at concrete headers — absent,
unparsable, parsed with `next`, and parsed without `next`. -/
theorem has_next_spec_witness :
    has_next demoParseWithRel none = Except.error LinkHeaderError.missingHeader ∧
    has_next demoParseWithRel (some "garbage") = Except.error LinkHeaderError.parseFailure ∧
    has_next demoParseWithRel (some "with-next") = Except.ok true ∧
    has_next demoParseWithRel (some "other") = Except.ok false := by
  obtain ⟨h1, h2, h3⟩ := has_next_spec demoParseWithRel
  refine ⟨h1, h2 "garbage" (by decide), ?_, ?_⟩
  · rw [h3 "with-next" ["next", "prev"] (by decide)]
    rfl
  · rw [h3 "other" ["prev"] (by decide)]
    rfl

/-! ## Patch materializer

Per-entry data model (src/main.rs:201-219) and the body of the processing
loop (src/main.rs:71-111).  Network and filesystem effects are injected:
`fileExists` models `filename.exists()`, `getPatchMetadata` and
`getPatchBytes` model the two fetch helpers (already `Result`-valued in the
source).  `metadata.files[0]` is Rust `Vec` indexing, which panics when the
`files` sequence is empty; the panic is modelled as the explicit failure
`EntryFailure.panicIndexOutOfBounds`.  `patch.id.as_u64()` yields an error
for a negative id (`context("expected unsigned patch id")`). -/

structure PatchFile where
  id : Int
  url : String
  filesize : Int
  filename : String
deriving DecidableEq

structure PatchMetaData where
  id : Int
  url : String
  slug : String
  title : String
  content : String
  files : List PatchFile
deriving DecidableEq

inductive EntryFailure
  | badPatchId
  | fetchFailed (msg : String)
  | panicIndexOutOfBounds
deriving DecidableEq

inductive EntryOutcome
  | retained (path : List Char)
  | skippedFile (filename : String)
  | written (path : List Char) (bytes : List Nat)
deriving DecidableEq

structure EntryEnv where
  fileExists : List Char → Bool
  getPatchMetadata : Nat → Except String PatchMetaData
  getPatchBytes : String → Except String (List Nat)

/-- One iteration of the per-patch loop in `main` (src/main.rs:71-111):
compute the target path, apply the overwrite policy, fetch metadata, select
`files[0]`, check the extension, fetch the bytes, apply `sysex_filter` for
the `syx` platform extension, and report the buffer written. -/
def process_entry (env : EntryEnv) (outputDir : String) (overwrite : Bool)
    (extension : String) (patch : Patch) : Except EntryFailure EntryOutcome :=
  let filename := target_path outputDir patch.slug extension
  if env.fileExists filename && !overwrite then
    Except.ok (EntryOutcome.retained filename)
  else if patch.id < 0 then
    Except.error EntryFailure.badPatchId
  else
    match env.getPatchMetadata patch.id.toNat with
    | Except.error e => Except.error (EntryFailure.fetchFailed e)
    | Except.ok metadata =>
      match metadata.files.head? with
      | none => Except.error EntryFailure.panicIndexOutOfBounds
      | some patch_file =>
        if !has_extension patch_file.filename extension then
          Except.ok (EntryOutcome.skippedFile patch_file.filename)
        else
          match env.getPatchBytes patch_file.url with
          | Except.error e => Except.error (EntryFailure.fetchFailed e)
          | Except.ok buf =>
            if extension = "syx" then
              match sysex_filter buf with
              | some filtered => Except.ok (EntryOutcome.written filename filtered)
              | none => Except.ok (EntryOutcome.written filename buf)
            else
              Except.ok (EntryOutcome.written filename buf)

/-- C1: for every fetched metadata whose `files` sequence is empty, and every
entry whose processing reaches the file-selection step (not retained by the
overwrite policy, valid id, metadata fetched), selecting the canonical file
yields no value and the entry's processing surfaces the failure — the
out-of-bounds panic of `metadata.files[0]` — rather than succeeding. -/
theorem empty_files_entry_fails (env : EntryEnv) (outputDir : String)
    (overwrite : Bool) (extension : String) (patch : Patch) (m : PatchMetaData)
    (hfile : env.fileExists (target_path outputDir patch.slug extension) = false ∨
      overwrite = true)
    (hid : 0 ≤ patch.id)
    (hmeta : env.getPatchMetadata patch.id.toNat = Except.ok m)
    (hempty : m.files = []) :
    m.files.head? = none ∧
    process_entry env outputDir overwrite extension patch =
      Except.error EntryFailure.panicIndexOutOfBounds := by
  have hsel : m.files.head? = none := by rw [hempty]; rfl
  refine ⟨hsel, ?_⟩
  have hcond : (env.fileExists (target_path outputDir patch.slug extension) && !overwrite)
      = false := by
    rcases hfile with h | h <;> rw [h] <;> simp
  have hid' : ¬patch.id < 0 := by omega
  simp only [process_entry, hcond, Bool.false_eq_true, if_false, if_neg hid', hmeta, hsel]

/-- A demonstration environment whose metadata fetch returns an entry with an
empty `files` sequence. -/
def demoEmptyFilesEnv : EntryEnv where
  fileExists := fun _ => false
  getPatchMetadata := fun _ =>
    Except.ok { id := 7, url := "u", slug := "patch-a", title := "t", content := "c",
                files := [] }
  getPatchBytes := fun _ => Except.ok []

/-- Witness for C1 at a concrete entry with empty `files`. -/
theorem empty_files_entry_fails_witness :
    (([] : List PatchFile).head? = none) ∧
    process_entry demoEmptyFilesEnv "out" false "syx" { id := 7, slug := "patch-a" } =
      Except.error EntryFailure.panicIndexOutOfBounds := by
  have h := empty_files_entry_fails demoEmptyFilesEnv "out" false "syx"
    { id := 7, slug := "patch-a" }
    { id := 7, url := "u", slug := "patch-a", title := "t", content := "c", files := [] }
    (Or.inl rfl) (by decide) rfl rfl
  exact h
